import Mathlib

/-
Verification of the html2markdown converter's image-deduplication engine.

The development shallowly embeds the Python sources (`image_manager.py`,
`converter.py`, `path_resolver.py`, `preprocessor.py`, `markdown_converter.py`,
`utils.py`).  Strings are Lean `String`s manipulated through their character
lists; filesystem paths are lists of components; filesystem reads outside the
static image tree are an oracle (`Env`); the static image tree itself is
explicit state, since `process_images` both reads and writes it.  Character
case operations model the ASCII fragment of Python's Unicode-aware methods.
-/

set_option maxRecDepth 8000

namespace Html2Md

/-- Model of Python `str.startswith`: prefix test on the character lists. -/
def pyStartsWith (s pre : String) : Bool := pre.data.isPrefixOf s.data

/-- Model of Python `str.endswith`: suffix test on the character lists. -/
def pyEndsWith (s suf : String) : Bool := suf.data.isSuffixOf s.data

/-- Characters of Python `str.lower()` followed by `.replace(' ', '_')`
(the per-part operation of `utils.normalize_path`, ASCII fragment). -/
def lowerUnd (l : List Char) : List Char :=
  l.map fun c => if c.toLower = (' ') then ('_') else c.toLower

/-- Python `str.lower()` on a whole string (ASCII fragment). -/
def strLower (s : String) : String := String.mk (s.data.map Char.toLower)

/-- The external-URL test `path.startswith(('http://', 'https://'))` used by
`preprocessor.py` line 58, `image_manager.py` line 71 and `converter.py` line 255. -/
def isExternal (s : String) : Bool :=
  pyStartsWith s ("http://") || pyStartsWith s ("https://")

/-- Characters before the last dot of a list (Python `rsplit('.', 1)[0]`
when a dot is present). -/
def beforeLastDot (l : List Char) : List Char :=
  ((l.reverse.dropWhile fun c => c != ('.')).drop 1).reverse

/-- Characters after the last dot of a list (Python `rsplit('.', 1)[1]`
when a dot is present). -/
def afterLastDot (l : List Char) : List Char :=
  (l.reverse.takeWhile fun c => c != ('.')).reverse

/-- `utils.normalize_path` applied to one path component: lowercase with spaces
replaced by underscores; a component holding a dot and not starting with one is
split at its last dot and the extension is lowercased separately. -/
def normalizeComponent (s : String) : String :=
  if s.data.contains ('.') && !(s.data.take 1 == [('.')]) then
    String.mk (lowerUnd (beforeLastDot s.data) ++ ('.') :: (afterLastDot s.data).map Char.toLower)
  else
    String.mk (lowerUnd s.data)

/-- Model of `pathlib.Path(p).name`: the last slash-separated component,
ignoring trailing slashes (the plain-segment reading; `.` and `..` inputs do
not occur in the converter's calls). -/
def pyName (s : String) : String :=
  String.mk (((s.data.reverse.dropWhile fun c => c == ('/')).takeWhile fun c => c != ('/')).reverse)

/-- Python `str.strip()` on characters: whitespace removed from both ends. -/
def stripWs (l : List Char) : List Char :=
  ((l.dropWhile Char.isWhitespace).reverse.dropWhile Char.isWhitespace).reverse

/-- Python `str.strip('-')`. -/
def stripDash (l : List Char) : List Char :=
  ((l.dropWhile fun c => c == ('-')).reverse.dropWhile fun c => c == ('-')).reverse

/-- Decimal digit character. -/
def digitCh (d : Nat) : Char :=
  match d with
  | 0 => ('0')
  | 1 => ('1')
  | 2 => ('2')
  | 3 => ('3')
  | 4 => ('4')
  | 5 => ('5')
  | 6 => ('6')
  | 7 => ('7')
  | 8 => ('8')
  | _ => ('9')

/-- Little-endian base-10 digits with explicit fuel (kernel-reducible). -/
def natDigitsAux : Nat → Nat → List Nat
  | 0, _ => []
  | fuel + 1, n => if n = 0 then [] else (n % 10) :: natDigitsAux fuel (n / 10)

/-- Little-endian base-10 digits; agrees with `Nat.digits 10`
(`natDigits_eq_digits`). -/
def natDigits (n : Nat) : List Nat := natDigitsAux n n

/-- Decimal rendering of a natural number, as Python formats integers. -/
def natDec (n : Nat) : String :=
  if n = 0 then "0" else String.mk (((natDigits n).map digitCh).reverse)

/-- Decimal rendering of an integer, as Python formats integers. -/
def intDec (i : Int) : String :=
  if i < 0 then "-" ++ natDec i.natAbs else natDec i.natAbs

/-- The collision name `f"{base_name}_{counter}.{extension}"` of
`image_manager.py` lines 164-181: the counter goes before the last extension
when the name holds a dot, after the whole name otherwise. -/
def suffixed (name : String) (n : Nat) : String :=
  if name.data.contains ('.') then
    String.mk (beforeLastDot name.data) ++ "_" ++ natDec n ++ "." ++
      String.mk (afterLastDot name.data)
  else
    name ++ "_" ++ natDec n

/-- First-match association-list lookup, the model of Python dict access and of
file lookup in a directory tree. -/
def dlookup {α β : Type} [DecidableEq α] : List (α × β) → α → Option β
  | [], _ => none
  | (k, v) :: rest, key => if key = k then some v else dlookup rest key

/-- A path relative to the static image root, as its list of components. -/
abbrev RelPath := List String

/-- A source document, identified by its input-root-relative path components
(`process_images` resolves relative documents against the input root, so the
relative components determine the behaviour). -/
abbrev Doc := List String

/-- Oracle for the filesystem outside the static image tree.  `resolve` models
`(source_dir / original_path).resolve()` together with the `.exists()` check of
`image_manager.py` lines 85-93 (`none` covers a missing file and a raised
exception alike); `srcHash` models `ImageManager.calculate_hash` on the source
file (`none` is the caught I/O error); `srcName` models `full_path.name`;
`copyOk` tells whether `shutil.copy2` succeeds (line 192-200). -/
structure Env where
  resolve : String → Doc → Option String
  srcHash : String → Option String
  srcName : String → String
  copyOk : String → RelPath → Bool

/-- The mutable fields of `ImageManager` (image_manager.py lines 13-35). -/
structure ImageManager where
  project_name : String
  output_dirname : String
  image_references : List (String × List Doc) := []
  image_map : List (String × (String × RelPath)) := []
  hash_to_path : List (String × RelPath) := []
  moved_images : List RelPath := []
  doc_to_images : List (Doc × List String) := []
  deriving DecidableEq

/-- `defaultdict(list)` append: `image_references[original_path].append(doc)`. -/
def appendRef (l : List (String × List Doc)) (k : String) (d : Doc) :
    List (String × List Doc) :=
  match l with
  | [] => [(k, [d])]
  | (k', ds) :: rest => if k = k' then (k', ds ++ [d]) :: rest else (k', ds) :: appendRef rest k d

/-- `defaultdict(list)` append for `doc_to_images`. -/
def appendDocImg (l : List (Doc × List String)) (k : Doc) (s : String) :
    List (Doc × List String) :=
  match l with
  | [] => [(k, [s])]
  | (k', ss) :: rest => if k = k' then (k', ss ++ [s]) :: rest else (k', ss) :: appendDocImg rest k s

/-- `ImageManager.add_image_reference` (lines 49-55). -/
def add_image_reference (m : ImageManager) (originalPath : String) (sourceDoc : Doc)
    (resolvedPath : Option String) : ImageManager :=
  let refs := appendRef m.image_references originalPath sourceDoc
  let refs :=
    match resolvedPath with
    | some rp => appendRef refs rp sourceDoc
    | none => refs
  { m with image_references := refs,
           doc_to_images := appendDocImg m.doc_to_images sourceDoc originalPath }

/-- `len(parts) >= 2 and parts[0].lower() == parts[1].lower()`. -/
def adjacentDup (parts : List String) : Bool :=
  match parts with
  | p0 :: p1 :: _ => strLower p0 == strLower p1
  | _ => false

/-- Lines 104-140 of `image_manager.py`: the static subdirectory for an image,
derived from the referencing document's normalized input-relative directory,
with the duplicate-segment handling of lines 119-132. -/
def imgSubdir (project_name : String) (doc : Doc) : List String :=
  let parts := (doc.map normalizeComponent).dropLast
  if strLower project_name == "product_docs" then
    if !parts.isEmpty && adjacentDup parts then parts.drop 1 else parts
  else if !parts.isEmpty then
    if strLower (parts.headD ("")) == strLower project_name then
      if parts.length > 1 then parts.drop 1 else []
    else if adjacentDup parts then parts.drop 1
    else parts
  else []

/-- State threaded through `ImageManager.process_images`: the manager, the
files of the static tree (components ↦ content hash, `shutil.copy2` modelled as
writing the source bytes), and the loop-local `processed_images` set. -/
structure PIState where
  mgr : ImageManager
  disk : List (RelPath × String)
  processed : List String
  deriving DecidableEq

/-- `new_path.exists()` against the static tree. -/
def occupied (disk : List (RelPath × String)) (p : RelPath) : Bool := (dlookup disk p).isSome

/-- The probing loop: try counters `n, n+1, ...` while the candidate name
exists, with explicit fuel. -/
def freeCounterAux (disk : List (RelPath × String)) (subdir : List String) (name : String) :
    Nat → Nat → Nat
  | 0, n => n
  | fuel + 1, n =>
    if occupied disk (subdir ++ [suffixed name n]) then freeCounterAux disk subdir name fuel (n + 1)
    else n

/-- The collision counter of `process_images` lines 156-181: the `while True`
loop starting at counter 1; `disk.length + 1` probes always suffice
(`freeCounter_spec` below), so the fuel never runs out. -/
def freeCounter (disk : List (RelPath × String)) (subdir : List String) (name : String) : Nat :=
  freeCounterAux disk subdir name (disk.length + 1) 1

/-- Lines 74-93 of `image_manager.py`: try each referencing document in order,
accepting the first whose directory resolves the reference to an existing file. -/
def resolveFirst (env : Env) (orig : String) : List Doc → Option (String × Doc)
  | [] => none
  | d :: ds =>
    match env.resolve orig d with
    | some f => some (f, d)
    | none => resolveFirst env orig ds

/-- One iteration of the main loop of `ImageManager.process_images`
(lines 65-200): skip already-processed and external references, resolve the
file, hash it, and either reuse the canonical path of a known hash, reuse an
identical on-disk file, or copy under a collision-free name. -/
def processOne (env : Env) (st : PIState) (ref : String × List Doc) : PIState :=
  if ref.1 ∈ st.processed then st else
  let orig := ref.1
  let st1 : PIState := { st with processed := orig :: st.processed }
  if isExternal orig then st1 else
  match resolveFirst env orig ref.2 with
  | none => st1
  | some (file, doc) =>
    match env.srcHash file with
    | none => st1
    | some fileHash =>
      let subdir := imgSubdir st1.mgr.project_name doc
      match dlookup st1.mgr.hash_to_path fileHash with
      | some p =>
        { st1 with mgr :=
            { st1.mgr with image_map := st1.mgr.image_map ++ [(orig, (fileHash, p))] } }
      | none =>
        let name := normalizeComponent (env.srcName file)
        let cand : RelPath := subdir ++ [name]
        match dlookup st1.disk cand with
        | some existingHash =>
          if existingHash = fileHash then
            { st1 with mgr :=
                { st1.mgr with
                  moved_images := st1.mgr.moved_images ++ [cand],
                  hash_to_path := st1.mgr.hash_to_path ++ [(fileHash, cand)],
                  image_map := st1.mgr.image_map ++ [(orig, (fileHash, cand))] } }
          else
            let newPath : RelPath := subdir ++ [suffixed name (freeCounter st1.disk subdir name)]
            if env.copyOk file newPath then
              { st1 with
                disk := st1.disk ++ [(newPath, fileHash)],
                mgr :=
                  { st1.mgr with
                    moved_images := st1.mgr.moved_images ++ [newPath],
                    hash_to_path := st1.mgr.hash_to_path ++ [(fileHash, newPath)],
                    image_map := st1.mgr.image_map ++ [(orig, (fileHash, newPath))] } }
            else st1
        | none =>
          if env.copyOk file cand then
            { st1 with
              disk := st1.disk ++ [(cand, fileHash)],
              mgr :=
                { st1.mgr with
                  moved_images := st1.mgr.moved_images ++ [cand],
                  hash_to_path := st1.mgr.hash_to_path ++ [(fileHash, cand)],
                  image_map := st1.mgr.image_map ++ [(orig, (fileHash, cand))] } }
          else st1

/-- `ImageManager.process_images` (lines 57-200): iterate the reference index
in insertion order over the initial static-tree contents `disk0`. -/
def process_images (env : Env) (m : ImageManager) (disk0 : List (RelPath × String)) : PIState :=
  m.image_references.foldl (processOne env) ⟨m, disk0, []⟩

/-- Slash-joined rendering of path components (`str()` of a relative
`pathlib.Path`). -/
def joinSlash : RelPath → String
  | [] => ""
  | [s] => s
  | s :: rest => s ++ "/" ++ joinSlash rest

/-- The rewritten root-relative image path `f"/static/img/{output_dirname}/{rel}"`. -/
def staticImgPath (out : String) (rel : RelPath) : String :=
  "/static/img/" ++ out ++ "/" ++ joinSlash rel

/-- `ImageManager.get_new_image_path` (lines 202-208). -/
def get_new_image_path (m : ImageManager) (originalPath : String) : String :=
  match dlookup m.image_map originalPath with
  | some hp => staticImgPath m.output_dirname hp.2
  | none => originalPath

/-- The `f"{stem}_*{suffix}"` glob of lines 230-238, matched against a file
name (`fnmatch` semantics: `*` matches any, possibly empty, sequence). -/
def matchesSuffixGlob (nf b : String) : Bool :=
  let stem :=
    if nf.data.contains ('.') && !(nf.data.take 1 == [('.')]) then
      String.mk (beforeLastDot nf.data)
    else nf
  let ext :=
    if nf.data.contains ('.') && !(nf.data.take 1 == [('.')]) then
      "." ++ String.mk (afterLastDot nf.data)
    else ""
  pyStartsWith b (stem ++ "_") && pyEndsWith b ext &&
    decide (stem.data.length + 1 + ext.data.length ≤ b.data.length)

/-- `ImageManager.get_new_image_path_by_filename` (lines 210-240): normalize
the bare filename, scan the image map for a matching original basename, then
fall back to a recursive search of the static tree for the exact name and then
for collision-suffixed variants; `rglob` enumeration order is the `disk` list
order. -/
def get_new_image_path_by_filename (m : ImageManager) (disk : List (RelPath × String))
    (filename : String) : Option String :=
  let nf := normalizeComponent filename
  match m.image_map.find? fun e => normalizeComponent (pyName e.1) == nf with
  | some e => some (staticImgPath m.output_dirname e.2.2)
  | none =>
    match disk.find? fun d => d.1.getLastD ("") == nf with
    | some d => some (staticImgPath m.output_dirname d.1)
    | none =>
      match disk.find? fun d => matchesSuffixGlob nf (d.1.getLastD ("")) with
      | some d => some (staticImgPath m.output_dirname d.1)
      | none => none

/-- The record returned by `ImageManager.get_deduplication_stats`;
`ratioPercent` models the `deduplication_ratio` entry. -/
structure DedupStats where
  total_references : Nat
  unique_images : Nat
  duplicates_removed : Int
  ratioPercent : String
  deriving DecidableEq

/-- `f"{(space_saved / total_references * 100):.1f}%"`: one-decimal percentage.
At instances where the float value is exact (such as 4/10) this agrees with
Python's float formatting. -/
def ratioPercentText (saved : Int) (total : Nat) : String :=
  let tenths : Int := saved * 1000 / (total : Int)
  intDec (tenths / 10) ++ "." ++ natDec (tenths % 10).toNat ++ "%"

/-- `ImageManager.get_deduplication_stats` (lines 264-275). -/
def get_deduplication_stats (m : ImageManager) : DedupStats :=
  let total := m.image_references.length
  let unique := m.hash_to_path.length
  let saved : Int := (total : Int) - (unique : Int)
  { total_references := total,
    unique_images := unique,
    duplicates_removed := saved,
    ratioPercent := if total > 0 then ratioPercentText saved total else "0%" }

/-- One `<img>` tag of `HtmlPreprocessor._process_images` (preprocessor.py
lines 52-73): empty and external sources are left alone; otherwise the source
is registered with the reference collector and replaced by the placeholder
`f"/static/img/{output_dirname}/{normalized_filename}"`. -/
def preprocessImageSrc (out : String) (m : ImageManager) (sourceDoc : Doc) (src : String) :
    ImageManager × String :=
  if src = "" then (m, src)
  else if isExternal src then (m, src)
  else
    let m' := add_image_reference m src sourceDoc none
    (m', "/static/img/" ++ out ++ "/" ++ String.mk (lowerUnd (pyName src).data))

/-- One match of the image regex `!\[([^\]]*)\]\(([^)]+)\)`; a markdown
document's content is modelled as the alternation of plain text and such
matches, which is how `re.sub` walks it. -/
inductive MdPiece where
  | text (s : String)
  | img (alt path : String)
  deriving DecidableEq

/-- `replace_image_path` inside `_update_image_paths_in_markdown`
(converter.py lines 249-266). -/
def rewritePiece (m : ImageManager) (disk : List (RelPath × String)) : MdPiece → MdPiece
  | MdPiece.text s => MdPiece.text s
  | MdPiece.img alt path =>
    if isExternal path then MdPiece.img alt path
    else
      match get_new_image_path_by_filename m disk (pyName path) with
      | some newPath =>
        if newPath ≠ path then MdPiece.img alt newPath else MdPiece.img alt path
      | none => MdPiece.img alt path

/-- The image-link substitution pass over one document's matches
(converter.py line 269). -/
def rewriteContent (m : ImageManager) (disk : List (RelPath × String)) (c : List MdPiece) :
    List MdPiece :=
  c.map (rewritePiece m disk)

/-- One round of Python `anchor.replace('--', '-')`: simultaneous left-to-right
replacement of non-overlapping `--` by `-`. -/
def pyReplaceDD : List Char → List Char
  | [] => []
  | [c] => [c]
  | c1 :: c2 :: rest =>
    if c1 = ('-') ∧ c2 = ('-') then ('-') :: pyReplaceDD rest
    else c1 :: pyReplaceDD (c2 :: rest)

/-- `'--' in anchor`. -/
def hasDD : List Char → Bool
  | [] => false
  | [_] => false
  | c1 :: c2 :: rest => (c1 == ('-') && c2 == ('-')) || hasDD (c2 :: rest)

/-- `pyReplaceDD` never lengthens a list. -/
theorem pyReplaceDD_length_le : ∀ l : List Char, (pyReplaceDD l).length ≤ l.length
  | [] => by simp [pyReplaceDD]
  | [c] => by simp [pyReplaceDD]
  | c1 :: c2 :: rest => by
    by_cases h : c1 = ('-') ∧ c2 = ('-')
    · have ih := pyReplaceDD_length_le rest
      simp only [pyReplaceDD, if_pos h, List.length_cons]
      omega
    · have ih := pyReplaceDD_length_le (c2 :: rest)
      simp only [pyReplaceDD, if_neg h, List.length_cons] at ih ⊢
      omega

/-- When a double hyphen is present, one replacement round strictly shrinks. -/
theorem pyReplaceDD_length_lt : ∀ l : List Char, hasDD l = true →
    (pyReplaceDD l).length < l.length
  | [], h => by simp [hasDD] at h
  | [c], h => by simp [hasDD] at h
  | c1 :: c2 :: rest, h => by
    by_cases hd : c1 = ('-') ∧ c2 = ('-')
    · have := pyReplaceDD_length_le rest
      simp only [pyReplaceDD, if_pos hd, List.length_cons]
      omega
    · have hr : hasDD (c2 :: rest) = true := by
        simp only [hasDD, Bool.or_eq_true, Bool.and_eq_true, beq_iff_eq] at h
        rcases h with ⟨h1, h2⟩ | h'
        · exact absurd ⟨h1, h2⟩ hd
        · exact h'
      have := pyReplaceDD_length_lt (c2 :: rest) hr
      simp only [pyReplaceDD, if_neg hd, List.length_cons] at this ⊢
      omega

/-- The replacement loop with explicit fuel. -/
def collapseLoopDDAux : Nat → List Char → List Char
  | 0, l => l
  | fuel + 1, l => if hasDD l then collapseLoopDDAux fuel (pyReplaceDD l) else l

/-- The `while '--' in anchor: anchor = anchor.replace('--', '-')` loop of
`markdown_converter.py` lines 94-95: each round strictly shrinks the list
(`pyReplaceDD_length_lt`), so `l.length` rounds always reach the fixpoint. -/
def collapseLoopDD (l : List Char) : List Char :=
  collapseLoopDDAux l.length l

/-- Direct one-pass collapse of hyphen runs to a single hyphen. -/
def collapseRuns : List Char → List Char
  | [] => []
  | [c] => [c]
  | c1 :: c2 :: rest =>
    if c1 = ('-') ∧ c2 = ('-') then collapseRuns (c2 :: rest)
    else c1 :: collapseRuns (c2 :: rest)

/-- `CustomMarkdownConverter._generate_markdown_anchor`
(markdown_converter.py lines 87-98). -/
def generate_markdown_anchor (text : String) : String :=
  let a0 := stripWs text.data
  let a1 := a0.map fun c => if c = (' ') then ('-') else c
  let a2 := a1.filter fun c => c.isAlphanum || c == ('-') || c == ('_')
  let a3 := collapseLoopDD a2
  String.mk (stripDash a3)

/-- The slug exactly as claim C8 words it: the text lowercased, spaces replaced
by hyphens, every character other than alphanumerics, hyphens and underscores
removed, and runs of consecutive hyphens collapsed to one. -/
def claimSlug (text : String) : String :=
  let a0 := text.data.map Char.toLower
  let a1 := a0.map fun c => if c = (' ') then ('-') else c
  let a2 := a1.filter fun c => c.isAlphanum || c == ('-') || c == ('_')
  String.mk (collapseRuns a2)

/-- The amended C8 slug: as the claim says but with no lowercasing, with
surrounding whitespace trimmed first and surrounding hyphens trimmed last. -/
def amendedSlug (text : String) : String :=
  let a0 := stripWs text.data
  let a1 := a0.map fun c => if c = (' ') then ('-') else c
  let a2 := a1.filter fun c => c.isAlphanum || c == ('-') || c == ('_')
  String.mk (stripDash (collapseRuns a2))

/-- The duplicate-segment logic shared by `PathResolver.get_output_path`
(lines 129-140) and `PathResolver._convert_to_document_path` (lines 96-109);
`inputName` is `self.input_dir.name.lower()`. -/
def collapseParts (inputName : String) (parts : List String) : List String :=
  match parts with
  | [] => []
  | p0 :: rest =>
    if strLower p0 == inputName then
      if (p0 :: rest).length > 1 then rest else []
    else if adjacentDup (p0 :: rest) then rest
    else p0 :: rest

/-- The `.htm`/`.html` → `.md` extension swap of `path_resolver.py`
lines 142-147 (`path_str[:-4] + '.md'` and `path_str[:-5] + '.md'`). -/
def swapExt (s : String) : String :=
  if pyEndsWith s (".htm") then String.mk (s.data.take (s.data.length - 4)) ++ ".md"
  else if pyEndsWith s (".html") then String.mk (s.data.take (s.data.length - 5)) ++ ".md"
  else s

/-- The extension swap applied to the joined path string: on a non-empty part
list it acts on the last component; the empty list renders as `'.'`, which the
swap leaves alone. -/
def swapExtLast (parts : List String) : List String :=
  match parts with
  | [] => []
  | _ => parts.dropLast ++ [swapExt (parts.getLastD (""))]

/-- `PathResolver.get_output_path` (lines 115-149) after `relative_to`: the
output path's components relative to the output root, computed from the input
file's input-root-relative components. -/
def getOutputParts (inputName : String) (relParts : List String) : List String :=
  swapExtLast (collapseParts inputName (relParts.map normalizeComponent))

/-- `PathResolver._convert_to_document_path` (lines 86-113) on the normalized
input-relative components: extension swap, then collapse, then the
root-relative rendering `f"/{output_dir_name}/{path_str}"`. -/
def convertToDocumentPath (inputName outName : String) (normalizedParts : List String) :
    String :=
  let parts := collapseParts inputName (swapExtLast normalizedParts)
  "/" ++ outName ++ "/" ++ joinSlash parts

/-- The collapse rule exactly as claim C4 words it: compare only components 0
and 1 case-insensitively and drop component 0 if they are equal; lists of
length 0 or 1 are returned unchanged. -/
def claimCollapse (parts : List String) : List String :=
  if parts.length ≤ 1 then parts
  else if strLower (parts.headD ("")) == strLower (parts.getD 1 ("")) then parts.drop 1
  else parts

/-- The document output path as claim C4's single rule would compute it. -/
def claimOutputParts (relParts : List String) : List String :=
  swapExtLast (claimCollapse (relParts.map normalizeComponent))

/-- `converter.py` line 24: the project name is the lowercased input-root name. -/
def project_nameOf (inputDirName : String) : String := strLower inputDirName

section LookupLemmas

variable {α β : Type} [DecidableEq α]

theorem dlookup_append_of_some {l : List (α × β)} {k : α} {v : β}
    (h : dlookup l k = some v) (l' : List (α × β)) : dlookup (l ++ l') k = some v := by
  induction l with
  | nil => simp [dlookup] at h
  | cons e rest ih =>
    obtain ⟨k', v'⟩ := e
    by_cases hk : k = k'
    · simp only [dlookup, if_pos hk] at h
      simp [dlookup, hk, h]
    · simp only [dlookup, if_neg hk] at h
      simpa [dlookup, hk] using ih h

theorem dlookup_append_of_none {l : List (α × β)} {k : α}
    (h : dlookup l k = none) (l' : List (α × β)) : dlookup (l ++ l') k = dlookup l' k := by
  induction l with
  | nil => simp
  | cons e rest ih =>
    obtain ⟨k', v'⟩ := e
    by_cases hk : k = k'
    · simp [dlookup, hk] at h
    · simp only [dlookup, if_neg hk] at h
      simpa [dlookup, hk] using ih h

theorem dlookup_singleton_self (k : α) (v : β) : dlookup [(k, v)] k = some v := by
  simp [dlookup]

theorem dlookup_eq_none_iff {l : List (α × β)} {k : α} :
    dlookup l k = none ↔ k ∉ l.map Prod.fst := by
  induction l with
  | nil => simp [dlookup]
  | cons e rest ih =>
    obtain ⟨k', v'⟩ := e
    by_cases hk : k = k'
    · simp [dlookup, hk]
    · simp [dlookup, hk, ih]

theorem occupied_false_iff (disk : List (RelPath × String)) (p : RelPath) :
    occupied disk p = false ↔ dlookup disk p = none := by
  unfold occupied
  cases dlookup disk p <;> simp

theorem occupied_true_iff (disk : List (RelPath × String)) (p : RelPath) :
    occupied disk p = true ↔ p ∈ disk.map Prod.fst := by
  have hn := dlookup_eq_none_iff (l := disk) (k := p)
  unfold occupied
  cases hd : dlookup disk p with
  | none =>
    simp only [hd, Option.isSome_none, Bool.false_eq_true, false_iff]
    exact hn.mp hd
  | some v =>
    simp only [hd, Option.isSome_some, true_iff]
    by_contra hmem
    have hnone := hn.mpr hmem
    rw [hnone] at hd
    exact Option.noConfusion hd

end LookupLemmas

section CounterLemmas

theorem digitCh_inj {d e : Nat} (hd : d < 10) (he : e < 10) (h : digitCh d = digitCh e) :
    d = e := by
  interval_cases d <;> interval_cases e <;> simp_all [digitCh]

theorem map_digitCh_inj : ∀ xs ys : List Nat, (∀ x ∈ xs, x < 10) → (∀ y ∈ ys, y < 10) →
    xs.map digitCh = ys.map digitCh → xs = ys
  | [], [], _, _, _ => rfl
  | [], _ :: _, _, _, h => by simp at h
  | _ :: _, [], _, _, h => by simp at h
  | x :: xs, y :: ys, hx, hy, h => by
    simp only [List.map_cons, List.cons.injEq] at h
    have h1 := digitCh_inj (hx x (by simp)) (hy y (by simp)) h.1
    have h2 := map_digitCh_inj xs ys (fun a ha => hx a (by simp [ha]))
      (fun a ha => hy a (by simp [ha])) h.2
    rw [h1, h2]

theorem natDigitsAux_eq_digits : ∀ fuel n : Nat, n ≤ fuel →
    natDigitsAux fuel n = Nat.digits 10 n
  | 0, n, hle => by
    have : n = 0 := by omega
    simp [natDigitsAux, this]
  | fuel + 1, n, hle => by
    by_cases hn : n = 0
    · simp [natDigitsAux, hn]
    · have hlt : n / 10 < n := Nat.div_lt_self (by omega) (by omega)
      have ih := natDigitsAux_eq_digits fuel (n / 10) (by omega)
      rw [natDigitsAux, if_neg hn, ih, Nat.digits_def' (by omega : 1 < 10) (by omega : 0 < n)]

theorem natDigits_eq_digits (n : Nat) : natDigits n = Nat.digits 10 n :=
  natDigitsAux_eq_digits n n (Nat.le_refl n)

theorem eq_zero_of_map_digitCh_digits (n : Nat)
    (h : (Nat.digits 10 n).map digitCh = [('0')]) : n = 0 := by
  cases hd : Nat.digits 10 n with
  | nil =>
    have := Nat.ofDigits_digits 10 n
    rw [hd] at this
    simpa [Nat.ofDigits] using this.symm
  | cons d t =>
    rw [hd] at h
    cases t with
    | nil =>
      simp only [List.map_cons, List.map_nil, List.cons.injEq, and_true] at h
      have hd10 : d < 10 := Nat.digits_lt_base (by omega) (by rw [hd]; simp)
      have hd0 : d = 0 := digitCh_inj hd10 (by omega) (by simpa [digitCh] using h)
      have := Nat.ofDigits_digits 10 n
      rw [hd, hd0] at this
      simpa [Nat.ofDigits] using this.symm
    | cons d2 t2 => simp at h

theorem natDec_inj {a b : Nat} (h : natDec a = natDec b) : a = b := by
  have digits_bound : ∀ n, ∀ d ∈ Nat.digits 10 n, d < 10 := fun n d hd =>
    Nat.digits_lt_base (by omega) hd
  rw [natDec, natDec, natDigits_eq_digits, natDigits_eq_digits] at h
  by_cases ha : a = 0 <;> by_cases hb : b = 0
  · omega
  · exfalso
    rw [if_pos ha, if_neg hb] at h
    have hlist : [('0')] = ((Nat.digits 10 b).map digitCh).reverse := congrArg String.data h
    have hmap : (Nat.digits 10 b).map digitCh = [('0')] := by
      have := congrArg List.reverse hlist
      simpa using this.symm
    exact hb (eq_zero_of_map_digitCh_digits b hmap)
  · exfalso
    rw [if_neg ha, if_pos hb] at h
    have hlist : ((Nat.digits 10 a).map digitCh).reverse = [('0')] := congrArg String.data h
    have hmap : (Nat.digits 10 a).map digitCh = [('0')] := by
      have := congrArg List.reverse hlist
      simpa using this
    exact ha (eq_zero_of_map_digitCh_digits a hmap)
  · rw [if_neg ha, if_neg hb] at h
    have hlist : ((Nat.digits 10 a).map digitCh).reverse =
        ((Nat.digits 10 b).map digitCh).reverse := congrArg String.data h
    have hmap := List.reverse_injective hlist
    have hdig := map_digitCh_inj _ _ (digits_bound a) (digits_bound b) hmap
    have := Nat.ofDigits_digits 10 a
    rw [hdig, Nat.ofDigits_digits] at this
    omega

theorem suffixed_inj (name : String) {m n : Nat} (h : suffixed name m = suffixed name n) :
    m = n := by
  unfold suffixed at h
  by_cases hdot : name.data.contains ('.')
  · rw [if_pos hdot, if_pos hdot] at h
    have hdata := congrArg String.data h
    simp only [String.data_append, List.append_assoc] at hdata
    have h1 := List.append_cancel_left hdata
    have h2 := List.append_cancel_left h1
    have h3 := List.append_cancel_right h2
    exact natDec_inj (String.ext h3)
  · rw [if_neg hdot, if_neg hdot] at h
    have hdata := congrArg String.data h
    simp only [String.data_append, List.append_assoc] at hdata
    have h1 := List.append_cancel_left hdata
    have h2 := List.append_cancel_left h1
    exact natDec_inj (String.ext h2)

/-- Among the first `disk.length + 1` counters starting at 1, some candidate
name is free: there are more candidate paths than files. -/
theorem exists_free_counter (disk : List (RelPath × String)) (subdir : List String)
    (name : String) :
    ∃ m, 1 ≤ m ∧ m < 1 + (disk.length + 1) ∧
      occupied disk (subdir ++ [suffixed name m]) = false := by
  by_contra hcon
  push_neg at hcon
  have hocc : ∀ m, 1 ≤ m → m < disk.length + 2 →
      (subdir ++ [suffixed name m]) ∈ disk.map Prod.fst := by
    intro m h1 h2
    have := hcon m h1 (by omega)
    rw [← occupied_true_iff]
    cases hoc : occupied disk (subdir ++ [suffixed name m])
    · exact absurd hoc this
    · rfl
  have hinj : Function.Injective fun m => subdir ++ [suffixed name m] := by
    intro x y hxy
    simp only [List.append_cancel_left_eq, List.cons.injEq, and_true] at hxy
    exact suffixed_inj name hxy
  have himage : (Finset.Icc 1 (disk.length + 1)).image (fun m => subdir ++ [suffixed name m]) ⊆
      (disk.map Prod.fst).toFinset := by
    intro p hp
    rw [Finset.mem_image] at hp
    obtain ⟨m, hm, rfl⟩ := hp
    rw [Finset.mem_Icc] at hm
    rw [List.mem_toFinset]
    exact hocc m hm.1 (by omega)
  have hcard1 : ((Finset.Icc 1 (disk.length + 1)).image
      (fun m => subdir ++ [suffixed name m])).card = disk.length + 1 := by
    rw [Finset.card_image_of_injective _ hinj, Nat.card_Icc]
    omega
  have hcard2 := Finset.card_le_card himage
  have hcard3 := List.toFinset_card_le (l := disk.map Prod.fst)
  simp only [hcard1, List.length_map] at hcard2 hcard3
  omega

theorem freeCounterAux_spec (disk : List (RelPath × String)) (subdir : List String)
    (name : String) :
    ∀ fuel start,
      (∃ m, start ≤ m ∧ m < start + fuel ∧
        occupied disk (subdir ++ [suffixed name m]) = false) →
      occupied disk (subdir ++ [suffixed name (freeCounterAux disk subdir name fuel start)])
          = false ∧
        start ≤ freeCounterAux disk subdir name fuel start ∧
        ∀ j, start ≤ j → j < freeCounterAux disk subdir name fuel start →
          occupied disk (subdir ++ [suffixed name j]) = true
  | 0, start, hex => by
    obtain ⟨m, h1, h2, _⟩ := hex
    omega
  | fuel + 1, start, hex => by
    by_cases hoc : occupied disk (subdir ++ [suffixed name start]) = true
    · have hex' : ∃ m, start + 1 ≤ m ∧ m < (start + 1) + fuel ∧
          occupied disk (subdir ++ [suffixed name m]) = false := by
        obtain ⟨m, h1, h2, h3⟩ := hex
        refine ⟨m, ?_, by omega, h3⟩
        rcases Nat.eq_or_lt_of_le h1 with heq | hlt
        · exfalso; rw [heq] at hoc; rw [hoc] at h3; exact Bool.noConfusion h3
        · omega
      have ih := freeCounterAux_spec disk subdir name fuel (start + 1) hex'
      simp only [freeCounterAux, if_pos hoc]
      refine ⟨ih.1, by omega, fun j hj1 hj2 => ?_⟩
      rcases Nat.eq_or_lt_of_le hj1 with heq | hlt
      · rw [← heq]; exact hoc
      · exact ih.2.2 j hlt hj2
    · have hocf : occupied disk (subdir ++ [suffixed name start]) = false := by
        cases h : occupied disk (subdir ++ [suffixed name start])
        · rfl
        · exact absurd h hoc
      simp only [freeCounterAux, if_neg hoc]
      exact ⟨hocf, Nat.le_refl start, fun j hj1 hj2 => by omega⟩

/-- The collision counter of `process_images`: the chosen name is free, the
counter is at least 1, and every smaller counter from 1 names an existing file
(the loop picks the first free name and never reuses one on disk). -/
theorem freeCounter_spec (disk : List (RelPath × String)) (subdir : List String)
    (name : String) :
    occupied disk (subdir ++ [suffixed name (freeCounter disk subdir name)]) = false ∧
      1 ≤ freeCounter disk subdir name ∧
      ∀ j, 1 ≤ j → j < freeCounter disk subdir name →
        occupied disk (subdir ++ [suffixed name j]) = true := by
  exact freeCounterAux_spec disk subdir name (disk.length + 1) 1
    (exists_free_counter disk subdir name)

end CounterLemmas

section BijectionInvariant

/-- Every canonical path recorded in `hash_to_path` names a static-tree file
with exactly that content hash. -/
def HtpDisk (htp : List (String × RelPath)) (disk : List (RelPath × String)) : Prop :=
  ∀ h p, dlookup htp h = some p → dlookup disk p = some h

/-- Every `image_map` entry agrees with `hash_to_path`. -/
def ImHtp (im : List (String × (String × RelPath))) (htp : List (String × RelPath)) : Prop :=
  ∀ o h p, dlookup im o = some (h, p) → dlookup htp h = some p

/-- The invariant carried through `process_images`. -/
def C1Inv (st : PIState) : Prop :=
  HtpDisk st.mgr.hash_to_path st.disk ∧ ImHtp st.mgr.image_map st.mgr.hash_to_path

theorem HtpDisk_extend_disk {htp : List (String × RelPath)} {disk : List (RelPath × String)}
    (hinv : HtpDisk htp disk) (x : List (RelPath × String)) : HtpDisk htp (disk ++ x) :=
  fun h p hl => dlookup_append_of_some (hinv h p hl) x

theorem HtpDisk_insert_reuse {htp : List (String × RelPath)} {disk : List (RelPath × String)}
    {p : RelPath} {hsh : String} (hinv : HtpDisk htp disk)
    (hd : dlookup disk p = some hsh) : HtpDisk (htp ++ [(hsh, p)]) disk := by
  intro h q hl
  cases hcase : dlookup htp h with
  | none =>
    rw [dlookup_append_of_none hcase] at hl
    unfold dlookup at hl
    by_cases hh : h = hsh
    · rw [if_pos hh] at hl
      cases hl
      rw [hh]
      exact hd
    · rw [if_neg hh] at hl
      exact Option.noConfusion hl
  | some v =>
    rw [dlookup_append_of_some hcase] at hl
    cases hl
    exact hinv h q hcase

theorem HtpDisk_insert_copy {htp : List (String × RelPath)} {disk : List (RelPath × String)}
    {p : RelPath} {hsh : String} (hinv : HtpDisk htp disk)
    (hfree : dlookup disk p = none) :
    HtpDisk (htp ++ [(hsh, p)]) (disk ++ [(p, hsh)]) := by
  intro h q hl
  cases hcase : dlookup htp h with
  | none =>
    rw [dlookup_append_of_none hcase] at hl
    unfold dlookup at hl
    by_cases hh : h = hsh
    · rw [if_pos hh] at hl
      cases hl
      rw [dlookup_append_of_none hfree]
      unfold dlookup
      rw [if_pos rfl, hh]
    · rw [if_neg hh] at hl
      exact Option.noConfusion hl
  | some v =>
    rw [dlookup_append_of_some hcase] at hl
    cases hl
    exact dlookup_append_of_some (hinv h q hcase) _

theorem ImHtp_extend_known {im : List (String × (String × RelPath))}
    {htp : List (String × RelPath)} {o hsh : String} {p : RelPath} (hinv : ImHtp im htp)
    (hh : dlookup htp hsh = some p) : ImHtp (im ++ [(o, (hsh, p))]) htp := by
  intro o' h' p' hl
  cases hcase : dlookup im o' with
  | none =>
    rw [dlookup_append_of_none hcase] at hl
    unfold dlookup at hl
    by_cases ho : o' = o
    · rw [if_pos ho] at hl
      cases hl
      exact hh
    · rw [if_neg ho] at hl
      exact Option.noConfusion hl
  | some v =>
    rw [dlookup_append_of_some hcase] at hl
    cases hl
    exact hinv o' h' p' hcase

theorem ImHtp_extend_new {im : List (String × (String × RelPath))}
    {htp : List (String × RelPath)} {o hsh : String} {p : RelPath} (hinv : ImHtp im htp)
    (hnew : dlookup htp hsh = none) :
    ImHtp (im ++ [(o, (hsh, p))]) (htp ++ [(hsh, p)]) := by
  intro o' h' p' hl
  cases hcase : dlookup im o' with
  | none =>
    rw [dlookup_append_of_none hcase] at hl
    unfold dlookup at hl
    by_cases ho : o' = o
    · rw [if_pos ho] at hl
      cases hl
      rw [dlookup_append_of_none hnew]
      unfold dlookup
      rw [if_pos rfl]
    · rw [if_neg ho] at hl
      exact Option.noConfusion hl
  | some v =>
    rw [dlookup_append_of_some hcase] at hl
    cases hl
    exact dlookup_append_of_some (hinv o' h' p' hcase) _

theorem c1Inv_processOne (env : Env) (st : PIState) (r : String × List Doc)
    (hinv : C1Inv st) : C1Inv (processOne env st r) := by
  unfold processOne
  dsimp only
  split
  · exact hinv
  · split
    · exact hinv
    · split
      · exact hinv
      · next file doc _ =>
        split
        · exact hinv
        · next fileHash _ =>
          split
          · next p hp => exact ⟨hinv.1, ImHtp_extend_known hinv.2 hp⟩
          · next hk =>
            split
            · next existingHash hd =>
              split
              · next heq =>
                refine ⟨HtpDisk_insert_reuse hinv.1 ?_, ImHtp_extend_new hinv.2 hk⟩
                rw [hd, heq]
              · next hne =>
                split
                · next hcp =>
                  have hfree : dlookup st.disk
                      (imgSubdir st.mgr.project_name doc ++
                        [suffixed (normalizeComponent (env.srcName file))
                          (freeCounter st.disk (imgSubdir st.mgr.project_name doc)
                            (normalizeComponent (env.srcName file)))]) = none := by
                    rw [← occupied_false_iff]
                    exact (freeCounter_spec st.disk (imgSubdir st.mgr.project_name doc)
                      (normalizeComponent (env.srcName file))).1
                  exact ⟨HtpDisk_insert_copy hinv.1 hfree, ImHtp_extend_new hinv.2 hk⟩
                · exact hinv
            · next hd =>
              split
              · next hcp =>
                exact ⟨HtpDisk_insert_copy hinv.1 hd, ImHtp_extend_new hinv.2 hk⟩
              · exact hinv

theorem c1Inv_foldl (env : Env) :
    ∀ (refs : List (String × List Doc)) (st : PIState),
      C1Inv st → C1Inv (refs.foldl (processOne env) st)
  | [], _, h => h
  | r :: rs, st, h => c1Inv_foldl env rs _ (c1Inv_processOne env st r h)

end BijectionInvariant

/-- C1.  Hash-to-canonical-path bijection: after `process_images` runs on a
fresh `ImageManager` (empty `image_map` and `hash_to_path`, arbitrary
pre-existing static tree), the mapping from content hash to canonical relative
path is injective — two hashes mapped to one path are equal — any two
references resolved to the same content hash receive the same canonical path
in `image_map`, and two references mapped to one canonical path carried the
same content hash. -/
theorem c1_hash_path_bijection (env : Env) (m : ImageManager)
    (disk0 : List (RelPath × String))
    (hm1 : m.hash_to_path = []) (hm2 : m.image_map = []) :
    (∀ h1 h2 p,
      dlookup (process_images env m disk0).mgr.hash_to_path h1 = some p →
      dlookup (process_images env m disk0).mgr.hash_to_path h2 = some p → h1 = h2) ∧
    (∀ o1 o2 h p1 p2,
      dlookup (process_images env m disk0).mgr.image_map o1 = some (h, p1) →
      dlookup (process_images env m disk0).mgr.image_map o2 = some (h, p2) → p1 = p2) ∧
    (∀ o1 o2 h1 h2 p,
      dlookup (process_images env m disk0).mgr.image_map o1 = some (h1, p) →
      dlookup (process_images env m disk0).mgr.image_map o2 = some (h2, p) → h1 = h2) := by
  have hinit : C1Inv ⟨m, disk0, []⟩ := by
    constructor
    · intro h p hl
      rw [hm1] at hl
      exact Option.noConfusion hl
    · intro o h p hl
      rw [hm2] at hl
      exact Option.noConfusion hl
  have hinv : C1Inv (process_images env m disk0) := c1Inv_foldl env m.image_references _ hinit
  have hpart1 : ∀ h1 h2 p,
      dlookup (process_images env m disk0).mgr.hash_to_path h1 = some p →
      dlookup (process_images env m disk0).mgr.hash_to_path h2 = some p → h1 = h2 := by
    intro h1 h2 p hl1 hl2
    have hd1 := hinv.1 h1 p hl1
    have hd2 := hinv.1 h2 p hl2
    rw [hd1] at hd2
    exact Option.some.inj hd2
  refine ⟨hpart1, ?_, ?_⟩
  · intro o1 o2 h p1 p2 hl1 hl2
    have hh1 := hinv.2 o1 h p1 hl1
    have hh2 := hinv.2 o2 h p2 hl2
    rw [hh1] at hh2
    exact Option.some.inj hh2
  · intro o1 o2 h1 h2 p hl1 hl2
    exact hpart1 h1 h2 p (hinv.2 o1 h1 p hl1) (hinv.2 o2 h2 p hl2)

/-- Witness environment: every reference resolves to itself, all files hash to
the same digest `H`. -/
def envC1 : Env :=
  { resolve := fun orig _ => some orig,
    srcHash := fun _ => some ("H"),
    srcName := fun f => pyName f,
    copyOk := fun _ _ => true }

/-- Witness manager: two references whose targets have identical bytes. -/
def mgrC1 : ImageManager :=
  { project_name := "docs", output_dirname := "out",
    image_references := [("a.png", [["d.html"]]), ("b/a2.png", [["d.html"]])] }

theorem c1_hash_path_bijection_witness :
    dlookup (process_images envC1 mgrC1 []).mgr.image_map ("a.png") = some (("H"), ["a.png"]) ∧
    dlookup (process_images envC1 mgrC1 []).mgr.image_map ("b/a2.png") = some (("H"), ["a.png"]) ∧
    (["a.png"] : RelPath) = ["a.png"] :=
  ⟨by decide, by decide,
    (c1_hash_path_bijection envC1 mgrC1 [] rfl rfl).2.1 ("a.png") ("b/a2.png") ("H")
      ["a.png"] ["a.png"] (by decide) (by decide)⟩

/-- C3.  Collision determinism: when a new image's candidate name is occupied
by a different-content file, `process_images` copies to
`subdir/suffixed name k` where `k` is the collision counter: that name is free,
the counter is at least 1, and every smaller counter from 1 names a file
already on disk — the first free `_1, _2, ...` name is chosen, deterministic
and never reusing an existing name. -/
theorem c3_collision_determinism (env : Env) (st : PIState) (r : String × List Doc)
    (file : String) (doc : Doc) (fileHash existingHash : String)
    (hp : r.1 ∉ st.processed) (hx : isExternal r.1 = false)
    (hr : resolveFirst env r.1 r.2 = some (file, doc))
    (hh : env.srcHash file = some fileHash)
    (hk : dlookup st.mgr.hash_to_path fileHash = none)
    (hc : dlookup st.disk (imgSubdir st.mgr.project_name doc ++
        [normalizeComponent (env.srcName file)]) = some existingHash)
    (hne : existingHash ≠ fileHash)
    (hcp : env.copyOk file (imgSubdir st.mgr.project_name doc ++
        [suffixed (normalizeComponent (env.srcName file))
          (freeCounter st.disk (imgSubdir st.mgr.project_name doc)
            (normalizeComponent (env.srcName file)))]) = true) :
    (processOne env st r).disk =
        st.disk ++ [(imgSubdir st.mgr.project_name doc ++
          [suffixed (normalizeComponent (env.srcName file))
            (freeCounter st.disk (imgSubdir st.mgr.project_name doc)
              (normalizeComponent (env.srcName file)))], fileHash)] ∧
      occupied st.disk (imgSubdir st.mgr.project_name doc ++
        [suffixed (normalizeComponent (env.srcName file))
          (freeCounter st.disk (imgSubdir st.mgr.project_name doc)
            (normalizeComponent (env.srcName file)))]) = false ∧
      1 ≤ freeCounter st.disk (imgSubdir st.mgr.project_name doc)
          (normalizeComponent (env.srcName file)) ∧
      ∀ j, 1 ≤ j →
        j < freeCounter st.disk (imgSubdir st.mgr.project_name doc)
            (normalizeComponent (env.srcName file)) →
        occupied st.disk (imgSubdir st.mgr.project_name doc ++
          [suffixed (normalizeComponent (env.srcName file)) j]) = true := by
  have hspec := freeCounter_spec st.disk (imgSubdir st.mgr.project_name doc)
    (normalizeComponent (env.srcName file))
  refine ⟨?_, hspec.1, hspec.2.1, hspec.2.2⟩
  have hx' : ¬ (isExternal r.1 = true) := by simp [hx]
  simp only [processOne, if_neg hp, if_neg hx', hr, hh, hk, hc, if_neg hne, if_pos hcp]

/-- Witness environment for C3: one source file named `logo.png` with content
hash `hB`, while the static tree already holds a different `logo.png`. -/
def envC3 : Env :=
  { resolve := fun orig _ => some orig,
    srcHash := fun f => if f = "b/logo.png" then some ("hB") else some ("hC"),
    srcName := fun _ => "logo.png",
    copyOk := fun _ _ => true }

/-- Witness state for C3: the canonical root already holds `logo.png` with a
different content hash `hA`. -/
def stC3 : PIState :=
  { mgr := { project_name := "docs", output_dirname := "out" },
    disk := [(["logo.png"], "hA")],
    processed := [] }

/-- Witness manager for the C3 example chain: two distinct-content images both
named `logo.png`. -/
def mgrC3 : ImageManager :=
  { project_name := "docs", output_dirname := "out",
    image_references := [("b/logo.png", [["d.html"]]), ("c/logo.png", [["d.html"]])] }

theorem c3_collision_determinism_witness :
    suffixed (normalizeComponent (envC3.srcName ("b/logo.png")))
        (freeCounter stC3.disk (imgSubdir stC3.mgr.project_name ["d.html"])
          (normalizeComponent (envC3.srcName ("b/logo.png")))) = "logo_1.png" ∧
    (process_images envC3 mgrC3 [(["logo.png"], "hA")]).disk =
      [(["logo.png"], "hA"), (["logo_1.png"], "hB"), (["logo_2.png"], "hC")] ∧
    ((processOne envC3 stC3 ("b/logo.png", [["d.html"]])).disk =
        stC3.disk ++ [(imgSubdir stC3.mgr.project_name ["d.html"] ++
          [suffixed (normalizeComponent (envC3.srcName ("b/logo.png")))
            (freeCounter stC3.disk (imgSubdir stC3.mgr.project_name ["d.html"])
              (normalizeComponent (envC3.srcName ("b/logo.png"))))], ("hB"))] ∧
      occupied stC3.disk (imgSubdir stC3.mgr.project_name ["d.html"] ++
        [suffixed (normalizeComponent (envC3.srcName ("b/logo.png")))
          (freeCounter stC3.disk (imgSubdir stC3.mgr.project_name ["d.html"])
            (normalizeComponent (envC3.srcName ("b/logo.png"))))]) = false ∧
      1 ≤ freeCounter stC3.disk (imgSubdir stC3.mgr.project_name ["d.html"])
          (normalizeComponent (envC3.srcName ("b/logo.png"))) ∧
      ∀ j, 1 ≤ j →
        j < freeCounter stC3.disk (imgSubdir stC3.mgr.project_name ["d.html"])
            (normalizeComponent (envC3.srcName ("b/logo.png"))) →
        occupied stC3.disk (imgSubdir stC3.mgr.project_name ["d.html"] ++
          [suffixed (normalizeComponent (envC3.srcName ("b/logo.png"))) j]) = true) :=
  ⟨by decide, by decide,
    c3_collision_determinism envC3 stC3 ("b/logo.png", [["d.html"]]) ("b/logo.png")
      ["d.html"] ("hB") ("hA") (by decide) (by decide) (by decide) (by decide)
      (by decide) (by decide) (by decide) (by decide)⟩

/-- The per-reference failure condition of C5: no referencing document's
directory resolves the reference to an existing file, or hashing the resolved
file raises an I/O error. -/
def FailsC5 (env : Env) (r : String × List Doc) : Prop :=
  resolveFirst env r.1 r.2 = none ∨
    ∃ f d, resolveFirst env r.1 r.2 = some (f, d) ∧ env.srcHash f = none

theorem dlookup_append_singleton_ne {α β : Type} [DecidableEq α]
    (l : List (α × β)) {k k0 : α} (v : β) (h : k ≠ k0) :
    dlookup (l ++ [(k0, v)]) k = dlookup l k := by
  cases hc : dlookup l k with
  | none =>
    rw [dlookup_append_of_none hc]
    unfold dlookup
    rw [if_neg h]
    rfl
  | some w => rw [dlookup_append_of_some hc]

theorem processOne_image_map_preserved (env : Env) (st : PIState) (r : String × List Doc)
    (o : String) (h : r.1 ≠ o ∨ FailsC5 env r) :
    dlookup (processOne env st r).mgr.image_map o = dlookup st.mgr.image_map o := by
  have hne : ∀ x, resolveFirst env r.1 r.2 = some x → env.srcHash x.1 ≠ none → r.1 ≠ o := by
    intro x hrf hhs
    rcases h with h | h
    · exact h
    · rcases h with h | ⟨f, d, hfd, hn⟩
      · rw [h] at hrf
        exact Option.noConfusion hrf
      · rw [hfd] at hrf
        cases hrf
        exact absurd hn hhs
  unfold processOne
  dsimp only
  split
  · rfl
  · split
    · rfl
    · split
      · rfl
      · next file doc hrf =>
        split
        · rfl
        · next fileHash hhs =>
          have ho : r.1 ≠ o :=
            hne (file, doc) hrf (by rw [hhs]; exact fun hc => Option.noConfusion hc)
          split
          · exact dlookup_append_singleton_ne _ _ (Ne.symm ho)
          · split
            · split
              · exact dlookup_append_singleton_ne _ _ (Ne.symm ho)
              · split
                · exact dlookup_append_singleton_ne _ _ (Ne.symm ho)
                · rfl
            · split
              · exact dlookup_append_singleton_ne _ _ (Ne.symm ho)
              · rfl

theorem foldl_image_map_preserved (env : Env) (o : String) :
    ∀ (refs : List (String × List Doc)) (st : PIState),
      (∀ r' ∈ refs, r'.1 = o → FailsC5 env r') →
      dlookup ((refs.foldl (processOne env) st)).mgr.image_map o = dlookup st.mgr.image_map o
  | [], _, _ => rfl
  | r :: rs, st, hall => by
    have hstep : dlookup (processOne env st r).mgr.image_map o = dlookup st.mgr.image_map o := by
      apply processOne_image_map_preserved
      by_cases he : r.1 = o
      · exact Or.inr (hall r (by simp) he)
      · exact Or.inl he
    have ih := foldl_image_map_preserved env o rs (processOne env st r)
      fun r' hr' => hall r' (by simp [hr'])
    rw [List.foldl_cons, ih, hstep]

/-- C5.  Unresolvable-reference and I/O-failure handling: a reference that no
referencing document resolves, or whose hashing fails, only marks itself
processed — the loop body is a total function that changes nothing else and
processing continues with the remaining references — and such a reference is
absent from the final `image_map`. -/
theorem c5_unresolved_reference_handling (env : Env) :
    (∀ (st : PIState) (r : String × List Doc), r.1 ∉ st.processed → FailsC5 env r →
      processOne env st r = { st with processed := r.1 :: st.processed }) ∧
    (∀ (m : ImageManager) (disk0 : List (RelPath × String)) (orig : String),
      m.image_map = [] →
      (∀ r' ∈ m.image_references, r'.1 = orig → FailsC5 env r') →
      dlookup (process_images env m disk0).mgr.image_map orig = none) := by
  constructor
  · intro st r hp hfail
    unfold processOne
    dsimp only
    rw [if_neg hp]
    split
    · rfl
    · rcases hfail with hfail | ⟨f, d, hfd, hn⟩
      · rw [hfail]
      · rw [hfd]
        dsimp only
        rw [hn]
  · intro m disk0 orig hm hall
    unfold process_images
    rw [foldl_image_map_preserved env orig m.image_references ⟨m, disk0, []⟩ hall]
    dsimp only
    rw [hm]
    rfl

/-- Witness environment for C5: nothing resolves. -/
def envC5 : Env :=
  { resolve := fun _ _ => none,
    srcHash := fun _ => none,
    srcName := fun f => f,
    copyOk := fun _ _ => true }

/-- Witness manager for C5: one reference that cannot be resolved. -/
def mgrC5 : ImageManager :=
  { project_name := "docs", output_dirname := "out",
    image_references := [("missing.png", [["d.html"]])] }

theorem c5_unresolved_reference_handling_witness :
    processOne envC5 ⟨mgrC5, [], []⟩ ("missing.png", [["d.html"]]) =
        { mgr := mgrC5, disk := [], processed := ["missing.png"] } ∧
    dlookup (process_images envC5 mgrC5 []).mgr.image_map ("missing.png") = none :=
  ⟨(c5_unresolved_reference_handling envC5).1 ⟨mgrC5, [], []⟩ ("missing.png", [["d.html"]])
      (by decide) (Or.inl rfl),
   (c5_unresolved_reference_handling envC5).2 mgrC5 [] ("missing.png") rfl
      (fun r' hr' _ => by
        simp only [mgrC5, List.mem_singleton] at hr'
        rw [hr']
        exact Or.inl rfl)⟩

/-- C10.  Implicit unresolved-lookup fallback: an `originalPath` absent from
the resolution map is returned unchanged by `get_new_image_path` — absence is
the identity on the input. -/
theorem c10_absent_lookup_identity (m : ImageManager) (originalPath : String)
    (h : dlookup m.image_map originalPath = none) :
    get_new_image_path m originalPath = originalPath := by
  unfold get_new_image_path
  rw [h]

/-- Witness manager for C10: one unrelated entry in the resolution map. -/
def mgrC10 : ImageManager :=
  { project_name := "docs", output_dirname := "out",
    image_map := [("a.png", ("h", ["a.png"]))] }

theorem c10_absent_lookup_identity_witness :
    dlookup mgrC10.image_map ("missing placeholder.png") = none ∧
    get_new_image_path mgrC10 ("missing placeholder.png") = "missing placeholder.png" :=
  ⟨by decide, c10_absent_lookup_identity mgrC10 ("missing placeholder.png") (by decide)⟩

/-- C6.  External-URL passthrough: an `http://`/`https://` image source is not
added to the reference collector and comes back unchanged from the
preprocessor; `process_images` only marks it processed, neither hashing nor
copying nor mapping anything; and the rewrite pass leaves the link untouched. -/
theorem c6_external_url_passthrough :
    (∀ (out : String) (m : ImageManager) (doc : Doc) (src : String), isExternal src = true →
      preprocessImageSrc out m doc src = (m, src)) ∧
    (∀ (env : Env) (st : PIState) (r : String × List Doc), isExternal r.1 = true →
      r.1 ∉ st.processed →
      processOne env st r = { st with processed := r.1 :: st.processed }) ∧
    (∀ (m : ImageManager) (disk : List (RelPath × String)) (alt path : String),
      isExternal path = true →
      rewritePiece m disk (MdPiece.img alt path) = MdPiece.img alt path) := by
  refine ⟨fun out m doc src hx => ?_, fun env st r hx hp => ?_, fun m disk alt path hx => ?_⟩
  · have hsrc : ¬ src = "" := by
      intro he
      rw [he] at hx
      exact absurd hx (by decide)
    unfold preprocessImageSrc
    rw [if_neg hsrc, if_pos hx]
  · unfold processOne
    dsimp only
    rw [if_neg hp, if_pos hx]
  · unfold rewritePiece
    dsimp only
    rw [if_pos hx]

theorem c6_external_url_passthrough_witness :
    preprocessImageSrc ("out") mgrC10 ["d.html"] ("https://example.com/x.png") =
        (mgrC10, "https://example.com/x.png") ∧
    processOne envC1 ⟨mgrC10, [], []⟩ ("https://example.com/x.png", [["d.html"]]) =
        { mgr := mgrC10, disk := [], processed := ["https://example.com/x.png"] } ∧
    rewritePiece mgrC10 [] (MdPiece.img ("x") ("https://example.com/x.png")) =
        MdPiece.img ("x") ("https://example.com/x.png") :=
  ⟨c6_external_url_passthrough.1 ("out") mgrC10 ["d.html"] ("https://example.com/x.png")
      (by decide),
   c6_external_url_passthrough.2.1 envC1 ⟨mgrC10, [], []⟩
      ("https://example.com/x.png", [["d.html"]]) (by decide) (by decide),
   c6_external_url_passthrough.2.2 mgrC10 [] ("x") ("https://example.com/x.png") (by decide)⟩

theorem isPrefixOf_append_self : ∀ l t : List Char, l.isPrefixOf (l ++ t) = true
  | [], _ => by simp [List.isPrefixOf]
  | c :: cs, t => by
    show ((c == c) && cs.isPrefixOf (cs ++ t)) = true
    rw [isPrefixOf_append_self cs t]
    simp

/-- Every successful filename lookup returns a path under
`/static/img/<output_dirname>/`. -/
theorem get_new_image_path_by_filename_prefixed (m : ImageManager)
    (disk : List (RelPath × String)) (f p : String)
    (h : get_new_image_path_by_filename m disk f = some p) :
    pyStartsWith p ("/static/img/" ++ m.output_dirname ++ "/") = true := by
  have hpre : ∀ rel : RelPath,
      pyStartsWith (staticImgPath m.output_dirname rel)
        ("/static/img/" ++ m.output_dirname ++ "/") = true := by
    intro rel
    unfold staticImgPath pyStartsWith
    rw [String.data_append]
    exact isPrefixOf_append_self _ _
  unfold get_new_image_path_by_filename at h
  dsimp only at h
  split at h
  · cases h
    exact hpre _
  · split at h
    · cases h
      exact hpre _
    · split at h
      · cases h
        exact hpre _
      · exact Option.noConfusion h

/-- C7 amended: every image reference actually rewritten (by the rewrite pass
or by `get_new_image_path`) is a root-relative path of the form
`/static/img/<output-directory-name>/...`; the directory component is the
output directory's name, not the project name. -/
theorem c7_amended_rewrite_under_output_dirname :
    (∀ (m : ImageManager) (disk : List (RelPath × String)) (piece : MdPiece),
      rewritePiece m disk piece ≠ piece →
      ∃ alt origPath newPath, piece = MdPiece.img alt origPath ∧
        rewritePiece m disk piece = MdPiece.img alt newPath ∧
        pyStartsWith newPath ("/static/img/" ++ m.output_dirname ++ "/") = true) ∧
    (∀ (m : ImageManager) (orig : String), get_new_image_path m orig ≠ orig →
      pyStartsWith (get_new_image_path m orig)
        ("/static/img/" ++ m.output_dirname ++ "/") = true) := by
  constructor
  · intro m disk piece hne
    cases piece with
    | text s => exact absurd rfl hne
    | img alt path =>
      unfold rewritePiece at hne ⊢
      dsimp only at hne ⊢
      by_cases hext : isExternal path = true
      · rw [if_pos hext] at hne
        exact absurd rfl hne
      · rw [if_neg hext] at hne ⊢
        cases hl : get_new_image_path_by_filename m disk (pyName path) with
        | none =>
          rw [hl] at hne
          exact absurd rfl hne
        | some np =>
          rw [hl] at hne
          dsimp only at hne ⊢
          by_cases hnp : np = path
          · rw [if_neg (by simp [hnp])] at hne
            exact absurd rfl hne
          · rw [if_pos hnp] at hne
            refine ⟨alt, path, np, rfl, ?_, get_new_image_path_by_filename_prefixed m disk _ np hl⟩
            rw [if_pos hnp]
  · intro m orig hne
    unfold get_new_image_path at hne ⊢
    cases hl : dlookup m.image_map orig with
    | none =>
      rw [hl] at hne
      exact absurd rfl hne
    | some hp =>
      dsimp only
      unfold staticImgPath pyStartsWith
      rw [String.data_append]
      exact isPrefixOf_append_self _ _

/-- Manager exhibiting the C7 counterexample: output directory named `out`,
input root named `Docs`. -/
def mgrC7 : ImageManager :=
  { project_name := project_nameOf ("Docs"), output_dirname := "out",
    image_map := [("img/a.png", ("h", ["a.png"]))] }

/-- C7 counterexample: with the input root named `Docs` (project name `docs`)
and the output directory named `out`, the rewrite pass produces
`/static/img/out/a.png`, which is not of the form
`/static/img/<project_name>/...`. -/
theorem c7_counterexample_output_dirname_not_project :
    rewriteContent mgrC7 [] [MdPiece.img ("x") ("img/a.png")] =
        [MdPiece.img ("x") ("/static/img/out/a.png")] ∧
    project_nameOf ("Docs") = "docs" ∧
    pyStartsWith ("/static/img/out/a.png")
      ("/static/img/" ++ project_nameOf ("Docs") ++ "/") = false := by
  refine ⟨by decide, by decide, by decide⟩

theorem c7_amended_rewrite_under_output_dirname_witness :
    (∃ alt origPath newPath,
      (MdPiece.img ("x") ("img/a.png")) = MdPiece.img alt origPath ∧
        rewritePiece mgrC7 [] (MdPiece.img ("x") ("img/a.png")) = MdPiece.img alt newPath ∧
        pyStartsWith newPath ("/static/img/" ++ mgrC7.output_dirname ++ "/") = true) ∧
    pyStartsWith (get_new_image_path mgrC7 ("img/a.png"))
      ("/static/img/" ++ mgrC7.output_dirname ++ "/") = true :=
  ⟨c7_amended_rewrite_under_output_dirname.1 mgrC7 [] (MdPiece.img ("x") ("img/a.png"))
      (by decide),
   c7_amended_rewrite_under_output_dirname.2 mgrC7 ("img/a.png") (by decide)⟩

/-- Witness environment for C9: each file hashes to the first two characters
of its name, so the ten references below resolve to six distinct hashes. -/
def envC9 : Env :=
  { resolve := fun orig _ => some orig,
    srcHash := fun f => some (String.mk (f.data.take 2)),
    srcName := fun f => f,
    copyOk := fun _ _ => true }

/-- C9 reference index: 10 distinct references built through
`add_image_reference`. -/
def mgrC9 : ImageManager :=
  List.foldl (fun m o => add_image_reference m o ["d.html"] none)
    { project_name := "docs", output_dirname := "out" }
    ["h1a.png", "h1b.png", "h2a.png", "h2b.png", "h3a.png", "h3b.png",
     "h4a.png", "h4b.png", "h5x.png", "h6x.png"]

/-- C9.  Deduplication statistics: with 10 references in the reference index
resolving to 6 distinct content hashes, `get_deduplication_stats` reports
`duplicates_removed = 4` and `deduplication_ratio = "40.0%"`. -/
theorem c9_dedup_stats :
    (process_images envC9 mgrC9 []).mgr.image_references.length = 10 ∧
    (process_images envC9 mgrC9 []).mgr.hash_to_path.length = 6 ∧
    get_deduplication_stats (process_images envC9 mgrC9 []).mgr =
      { total_references := 10, unique_images := 6, duplicates_removed := 4,
        ratioPercent := "40.0%" } := by
  refine ⟨by decide, by decide, by decide⟩

/-- C4 counterexample: on the claim's own example — input `Docs/Docs/guide.html`
under input root `Docs`, so input-relative components `["Docs", "guide.html"]` —
the code yields `guide.md` by dropping the leading component because it equals
the input-root name, while the claimed compare-components-0-and-1 single rule
leaves `docs/guide.md`; and a one-component list equal to the root name is
emptied, not returned unchanged.  `get_output_path` therefore does not
implement the claimed single rule. -/
theorem c4_counterexample_single_rule :
    getOutputParts (project_nameOf ("Docs")) ["Docs", "guide.html"] = ["guide.md"] ∧
    claimOutputParts ["Docs", "guide.html"] = ["docs", "guide.md"] ∧
    getOutputParts (project_nameOf ("Docs")) ["Docs", "guide.html"] ≠
      claimOutputParts ["Docs", "guide.html"] ∧
    collapseParts (project_nameOf ("Docs")) ["Docs"] = [] ∧
    claimCollapse ["Docs"] = ["Docs"] := by
  refine ⟨by decide, by decide, by decide, by decide, by decide⟩

/-- C4 amended: the duplicate-segment collapse drops component 0 when it equals
the lowercased input-root name, or else when components 0 and 1 are equal
case-insensitively; the empty list is unchanged, a one-component list is
unchanged unless its component equals the root name (then it becomes empty);
and the claim's examples hold — `Docs/Docs/guide.html` under root `Docs`
yields `guide.md`, and the non-adjacent duplicate `Docs/Setup/Docs/x.html` is
not collapsed. -/
theorem c4_amended_collapse_characterization :
    (∀ n : String, collapseParts n [] = []) ∧
    (∀ n x : String, strLower x ≠ n → collapseParts n [x] = [x]) ∧
    (∀ n x : String, strLower x = n → collapseParts n [x] = []) ∧
    (∀ (n x y : String) (r : List String), strLower x = n ∨ strLower x = strLower y →
      collapseParts n (x :: y :: r) = y :: r) ∧
    (∀ (n x y : String) (r : List String), strLower x ≠ n → strLower x ≠ strLower y →
      collapseParts n (x :: y :: r) = x :: y :: r) ∧
    getOutputParts (project_nameOf ("Docs")) ["Docs", "guide.html"] = ["guide.md"] ∧
    getOutputParts (project_nameOf ("Docs")) ["Setup", "Docs", "x.html"] =
      ["setup", "docs", "x.md"] := by
  refine ⟨fun n => rfl, ?_, ?_, ?_, ?_, by decide, by decide⟩
  · intro n x h
    simp [collapseParts, adjacentDup, h]
  · intro n x h
    simp [collapseParts, h]
  · intro n x y r h
    rcases h with h | h
    · simp [collapseParts, h]
    · by_cases hn : strLower x = n
      · simp [collapseParts, hn]
      · simp [collapseParts, adjacentDup, hn, h]
  · intro n x y r h1 h2
    simp [collapseParts, adjacentDup, h1, h2]

theorem c4_amended_collapse_characterization_witness :
    collapseParts ("docs") ["Setup"] = ["Setup"] ∧
    collapseParts ("docs") ["Docs", "guide.html"] = ["guide.html"] :=
  ⟨c4_amended_collapse_characterization.2.1 ("docs") ("Setup") (by decide),
   c4_amended_collapse_characterization.2.2.2.1 ("docs") ("Docs") ("guide.html") []
      (Or.inl (by decide))⟩

section SlugLemmas

/-- `collapseRuns` keeps the head of the list. -/
theorem collapseRuns_head : ∀ l : List Char, (collapseRuns l).head? = l.head?
  | [] => rfl
  | [c] => rfl
  | c1 :: c2 :: rest => by
    by_cases h : c1 = ('-') ∧ c2 = ('-')
    · obtain ⟨h1, h2⟩ := h
      have ih := collapseRuns_head (c2 :: rest)
      rw [collapseRuns, if_pos ⟨h1, h2⟩, ih]
      simp [h1, h2]
    · rw [collapseRuns, if_neg h]
      rfl

/-- Head-sensitive unfolding of `collapseRuns` on a cons. -/
theorem collapseRuns_cons (c : Char) (X : List Char) :
    collapseRuns (c :: X) =
      if c = ('-') ∧ X.head? = some ('-') then collapseRuns X
      else c :: collapseRuns X := by
  cases X with
  | nil => simp [collapseRuns]
  | cons x xs =>
    by_cases h : c = ('-') ∧ x = ('-')
    · rw [collapseRuns, if_pos h]
      rw [if_pos (by simp [h.1, h.2])]
    · rw [collapseRuns, if_neg h]
      rw [if_neg (by simpa using h)]

/-- Collapsing is a congruence for cons: lists with equal collapses keep equal
collapses after the same head is added. -/
theorem collapseRuns_cons_congr (c : Char) {X Y : List Char}
    (h : collapseRuns X = collapseRuns Y) :
    collapseRuns (c :: X) = collapseRuns (c :: Y) := by
  have hhead : X.head? = Y.head? := by
    rw [← collapseRuns_head X, ← collapseRuns_head Y, h]
  rw [collapseRuns_cons, collapseRuns_cons, hhead, h]

/-- One simultaneous `replace('--', '-')` round does not change the collapsed
form. -/
theorem collapseRuns_pyReplaceDD : ∀ l : List Char,
    collapseRuns (pyReplaceDD l) = collapseRuns l
  | [] => rfl
  | [c] => rfl
  | c1 :: c2 :: rest => by
    by_cases h : c1 = ('-') ∧ c2 = ('-')
    · obtain ⟨h1, h2⟩ := h
      subst h1
      subst h2
      have ih := collapseRuns_pyReplaceDD rest
      rw [pyReplaceDD, if_pos ⟨rfl, rfl⟩, collapseRuns, if_pos ⟨rfl, rfl⟩]
      exact collapseRuns_cons_congr ('-') ih
    · have ih := collapseRuns_pyReplaceDD (c2 :: rest)
      rw [pyReplaceDD, if_neg h, collapseRuns, if_neg h]
      rw [collapseRuns_cons_congr c1 ih]
      rw [collapseRuns_cons c1 (c2 :: rest)]
      rw [if_neg (by simpa using h)]

/-- Hyphen-free-adjacent lists are fixpoints of `collapseRuns`. -/
theorem collapseRuns_of_not_hasDD : ∀ l : List Char, hasDD l = false → collapseRuns l = l
  | [], _ => rfl
  | [c], _ => rfl
  | c1 :: c2 :: rest, h => by
    have hsplit : ¬(c1 = ('-') ∧ c2 = ('-')) ∧ hasDD (c2 :: rest) = false := by
      rw [hasDD] at h
      simp only [Bool.or_eq_false_iff, Bool.and_eq_false_iff] at h
      constructor
      · intro hc
        rcases h.1 with hh | hh <;> simp [hc.1, hc.2] at hh
      · exact h.2
    rw [collapseRuns, if_neg hsplit.1, collapseRuns_of_not_hasDD (c2 :: rest) hsplit.2]

/-- With enough fuel the replacement loop computes the one-pass collapse. -/
theorem collapseLoopDDAux_eq_collapseRuns : ∀ (fuel : Nat) (l : List Char),
    l.length ≤ fuel → collapseLoopDDAux fuel l = collapseRuns l
  | 0, l, hle => by
    have : l = [] := List.length_eq_zero.mp (by omega)
    rw [this]
    rfl
  | fuel + 1, l, hle => by
    rw [collapseLoopDDAux]
    cases hdd : hasDD l with
    | true =>
      rw [if_pos rfl]
      have hlt := pyReplaceDD_length_lt l hdd
      rw [collapseLoopDDAux_eq_collapseRuns fuel (pyReplaceDD l) (by omega)]
      exact collapseRuns_pyReplaceDD l
    | false =>
      rw [if_neg (by simp [hdd])]
      exact (collapseRuns_of_not_hasDD l hdd).symm

/-- The Python while-loop equals the one-pass run collapse. -/
theorem collapseLoopDD_eq_collapseRuns (l : List Char) :
    collapseLoopDD l = collapseRuns l :=
  collapseLoopDDAux_eq_collapseRuns l.length l (Nat.le_refl _)

end SlugLemmas

/-- C8 counterexample: the code's anchor slug never lowercases, so on the
anchor text `Hello World` the code produces `Hello-World` while the claimed
slug (lowercase first) is `hello-world`. -/
theorem c8_counterexample_no_lowercase :
    generate_markdown_anchor "Hello World" = "Hello-World" ∧
    claimSlug "Hello World" = "hello-world" ∧
    generate_markdown_anchor "Hello World" ≠ claimSlug "Hello World" := by
  refine ⟨by decide, by decide, by decide⟩

/-- C8 amended: for every anchor text, the generated slug equals the claim's
transformation without the lowercasing step, with surrounding whitespace
stripped first and surrounding hyphens stripped last: spaces to hyphens, keep
only alphanumerics, hyphens and underscores, collapse hyphen runs to one. -/
theorem c8_amended_slug (text : String) : generate_markdown_anchor text = amendedSlug text := by
  unfold generate_markdown_anchor amendedSlug
  dsimp only
  rw [collapseLoopDD_eq_collapseRuns]

section PathRenderLemmas

/-- Well-formed relative path: non-empty, with non-empty slash-free components. -/
def WfRel (rel : RelPath) : Prop :=
  rel ≠ [] ∧ ∀ s ∈ rel, s ≠ "" ∧ ('/') ∉ s.data

instance (rel : RelPath) : Decidable (WfRel rel) := by
  unfold WfRel
  infer_instance

theorem getLastD_default_irrel {α : Type} : ∀ (l : List α) (d1 d2 : α), l ≠ [] →
    l.getLastD d1 = l.getLastD d2
  | [], _, _, h => absurd rfl h
  | [x], _, _, _ => rfl
  | x :: y :: t, d1, d2, _ => by
    rw [List.getLastD_cons d1 x (y :: t), List.getLastD_cons d2 x (y :: t)]

theorem getLastD_mem {α : Type} : ∀ (l : List α) (d : α), l ≠ [] → l.getLastD d ∈ l
  | [], _, h => absurd rfl h
  | [x], d, _ => by simp
  | x :: y :: t, d, _ => by
    rw [List.getLastD_cons d x (y :: t)]
    exact List.mem_cons_of_mem x (getLastD_mem (y :: t) x (by simp))

theorem takeWhile_all_append (p : Char → Bool) :
    ∀ (u w : List Char), (∀ x ∈ u, p x = true) →
      List.takeWhile p (u ++ w) = u ++ List.takeWhile p w
  | [], w, _ => rfl
  | x :: xs, w, hall => by
    rw [List.cons_append, List.takeWhile_cons, hall x (by simp), if_pos rfl]
    rw [takeWhile_all_append p xs w fun y hy => hall y (by simp [hy])]
    rw [List.cons_append]

/-- The last slash-free segment of `a ++ '/' ++ b` is `b`. -/
theorem pyName_data_append (a b : List Char) (hb1 : b ≠ [])
    (hb2 : ∀ c ∈ b, c ≠ ('/')) :
    pyName (String.mk (a ++ ('/') :: b)) = String.mk b := by
  unfold pyName
  simp only
  have hD : (a ++ ('/') :: b).reverse = b.reverse ++ (('/') :: a.reverse) := by
    rw [List.reverse_append, List.reverse_cons, List.append_assoc]
    rfl
  rw [hD]
  obtain ⟨hd, tl, hbd⟩ : ∃ hd tl, b.reverse = hd :: tl := by
    cases hbr : b.reverse with
    | nil => exact absurd (by simpa using congrArg List.reverse hbr) hb1
    | cons x xs => exact ⟨x, xs, rfl⟩
  have hhd : hd ∈ b := by
    rw [← List.mem_reverse, hbd]
    simp
  have hhd' : (hd == ('/')) = false := by simp [hb2 hd hhd]
  rw [hbd, List.cons_append, List.dropWhile_cons, hhd']
  simp only [Bool.false_eq_true, if_false]
  rw [← List.cons_append, ← hbd]
  rw [takeWhile_all_append _ b.reverse (('/') :: a.reverse)
    (fun c hc => by simp [hb2 c (List.mem_reverse.mp hc)])]
  rw [List.takeWhile_cons]
  simp

theorem joinSlash_decomp : ∀ rel : RelPath, rel ≠ [] →
    (joinSlash rel).data = (rel.getLastD ("")).data ∨
      ∃ A, (joinSlash rel).data = A ++ ('/') :: (rel.getLastD ("")).data
  | [], h => absurd rfl h
  | [s], _ => Or.inl rfl
  | s :: r :: rs, _ => by
    right
    have hne : (r :: rs : List String) ≠ [] := by simp
    have hj : joinSlash (s :: r :: rs) = (s ++ "/") ++ joinSlash (r :: rs) := rfl
    have hlast : List.getLastD (s :: r :: rs) ("") = List.getLastD (r :: rs) ("") := by
      rw [List.getLastD_cons ("") s (r :: rs)]
      exact getLastD_default_irrel (r :: rs) s ("") hne
    rcases joinSlash_decomp (r :: rs) hne with h | ⟨A, h⟩
    · refine ⟨s.data, ?_⟩
      rw [hj, String.data_append, String.data_append, h, hlast, List.append_assoc,
        show ("/" : String).data = [('/')] from by decide]
      simp [List.append_assoc]
    · refine ⟨(s.data ++ [('/')]) ++ A, ?_⟩
      rw [hj, String.data_append, String.data_append, h, hlast, List.append_assoc,
        List.append_assoc, show ("/" : String).data = [('/')] from by decide]
      simp [List.append_assoc]

theorem staticImgPath_decomp (out : String) (rel : RelPath) (h : rel ≠ []) :
    ∃ A, (staticImgPath out rel).data = A ++ ('/') :: (rel.getLastD ("")).data := by
  have hs : staticImgPath out rel = (("/static/img/" ++ out) ++ "/") ++ joinSlash rel := rfl
  rcases joinSlash_decomp rel h with hj | ⟨A, hj⟩
  · refine ⟨("/static/img/" ++ out).data, ?_⟩
    rw [hs, String.data_append, String.data_append, hj, List.append_assoc,
      show ("/" : String).data = [('/')] from by decide]
    simp [List.append_assoc]
  · refine ⟨(("/static/img/" ++ out).data ++ [('/')]) ++ A, ?_⟩
    rw [hs, String.data_append, String.data_append, hj, List.append_assoc, List.append_assoc,
      show ("/" : String).data = [('/')] from by decide]
    simp [List.append_assoc]

/-- The filename extracted from a rewritten static path is the canonical
path's last component. -/
theorem pyName_staticImgPath (out : String) (rel : RelPath) (h : WfRel rel) :
    pyName (staticImgPath out rel) = rel.getLastD ("") := by
  obtain ⟨A, hA⟩ := staticImgPath_decomp out rel h.1
  have hlast := h.2 (rel.getLastD ("")) (getLastD_mem rel ("") h.1)
  have hrepr : staticImgPath out rel = String.mk (A ++ ('/') :: (rel.getLastD ("")).data) :=
    String.ext hA
  rw [hrepr, pyName_data_append A (rel.getLastD ("")).data
    (fun hdnil => hlast.1 (String.ext hdnil))
    (fun c hc hceq => hlast.2 (hceq ▸ hc))]

/-- A rewritten static path is never an external URL. -/
theorem isExternal_staticImgPath (out : String) (rel : RelPath) :
    isExternal (staticImgPath out rel) = false := rfl

end PathRenderLemmas

section RewriteStability

/-- Every map entry's canonical filename is the normalized basename of its
original path and is itself normalization-fixed (no collision suffix drift). -/
def MapNamesStable (m : ImageManager) : Prop :=
  ∀ e ∈ m.image_map, WfRel e.2.2 ∧
    e.2.2.getLastD ("") = normalizeComponent (pyName e.1) ∧
    normalizeComponent (e.2.2.getLastD ("")) = e.2.2.getLastD ("")

/-- Every canonical path in the map is a file of the static tree. -/
def MapInDisk (m : ImageManager) (disk : List (RelPath × String)) : Prop :=
  ∀ e ∈ m.image_map, e.2.2 ∈ disk.map Prod.fst

/-- No two static-tree files share a filename. -/
def DiskNamesDistinct (disk : List (RelPath × String)) : Prop :=
  ∀ d1 ∈ disk, ∀ d2 ∈ disk, d1.1.getLastD ("") = d2.1.getLastD ("") → d1.1 = d2.1

/-- Static-tree paths are well-formed with normalization-fixed filenames. -/
def DiskNamesStable (disk : List (RelPath × String)) : Prop :=
  ∀ d ∈ disk, WfRel d.1 ∧ normalizeComponent (d.1.getLastD ("")) = d.1.getLastD ("")

instance (m : ImageManager) : Decidable (MapNamesStable m) := by
  unfold MapNamesStable
  infer_instance

instance (m : ImageManager) (disk : List (RelPath × String)) :
    Decidable (MapInDisk m disk) := by
  unfold MapInDisk
  infer_instance

instance (disk : List (RelPath × String)) : Decidable (DiskNamesDistinct disk) := by
  unfold DiskNamesDistinct
  infer_instance

instance (disk : List (RelPath × String)) : Decidable (DiskNamesStable disk) := by
  unfold DiskNamesStable
  infer_instance

/-- A filename lookup never returns an external URL. -/
theorem get_new_image_path_by_filename_not_external (m : ImageManager)
    (disk : List (RelPath × String)) (f p : String)
    (h : get_new_image_path_by_filename m disk f = some p) : isExternal p = false := by
  unfold get_new_image_path_by_filename at h
  dsimp only at h
  split at h
  · cases h
    exact isExternal_staticImgPath _ _
  · split at h
    · cases h
      exact isExternal_staticImgPath _ _
    · split at h
      · cases h
        exact isExternal_staticImgPath _ _
      · exact Option.noConfusion h

/-- Stability of the filename lookup: under the name hypotheses, looking up the
basename of a lookup result returns the same path. -/
theorem get_new_image_path_by_filename_stable (m : ImageManager)
    (disk : List (RelPath × String))
    (H1 : MapNamesStable m) (H3 : MapInDisk m disk) (H4 : DiskNamesDistinct disk)
    (H5 : DiskNamesStable disk) (f p : String)
    (h : get_new_image_path_by_filename m disk f = some p) :
    get_new_image_path_by_filename m disk (pyName p) = some p := by
  unfold get_new_image_path_by_filename at h ⊢
  dsimp only at h ⊢
  cases hA : m.image_map.find?
      (fun e => normalizeComponent (pyName e.1) == normalizeComponent f) with
  | some e =>
    rw [hA] at h
    dsimp only at h
    cases h
    have hmem := List.mem_of_find?_eq_some hA
    have hpred : normalizeComponent (pyName e.1) = normalizeComponent f := by
      simpa using List.find?_some hA
    obtain ⟨hwf, hlast, hfix⟩ := H1 e hmem
    have hname : pyName (staticImgPath m.output_dirname e.2.2) = e.2.2.getLastD ("") :=
      pyName_staticImgPath _ _ hwf
    have hkey : normalizeComponent (pyName (staticImgPath m.output_dirname e.2.2)) =
        normalizeComponent f := by
      rw [hname, hfix, hlast, hpred]
    rw [hkey, hA]
  | none =>
    rw [hA] at h
    dsimp only at h
    cases hB : disk.find? (fun d => d.1.getLastD ("") == normalizeComponent f) with
    | some d =>
      rw [hB] at h
      dsimp only at h
      cases h
      have hmem := List.mem_of_find?_eq_some hB
      have hpred : d.1.getLastD ("") = normalizeComponent f := by
        simpa using List.find?_some hB
      obtain ⟨hwf, hfix⟩ := H5 d hmem
      have hname : pyName (staticImgPath m.output_dirname d.1) = d.1.getLastD ("") :=
        pyName_staticImgPath _ _ hwf
      have hkey : normalizeComponent (pyName (staticImgPath m.output_dirname d.1)) =
          normalizeComponent f := by
        rw [hname, hfix, hpred]
      rw [hkey, hA, hB]
    | none =>
      rw [hB] at h
      dsimp only at h
      cases hC : disk.find?
          (fun d => matchesSuffixGlob (normalizeComponent f) (d.1.getLastD (""))) with
      | none =>
        rw [hC] at h
        exact Option.noConfusion h
      | some d =>
        rw [hC] at h
        dsimp only at h
        cases h
        have hmemd := List.mem_of_find?_eq_some hC
        obtain ⟨hwf, hfix⟩ := H5 d hmemd
        have hname : pyName (staticImgPath m.output_dirname d.1) = d.1.getLastD ("") :=
          pyName_staticImgPath _ _ hwf
        rw [hname, hfix]
        cases hA2 : m.image_map.find?
            (fun e => normalizeComponent (pyName e.1) == d.1.getLastD ("")) with
        | some e2 =>
          dsimp only
          have hm2 := List.mem_of_find?_eq_some hA2
          have hp2 : normalizeComponent (pyName e2.1) = d.1.getLastD ("") := by
            simpa using List.find?_some hA2
          obtain ⟨hwf2, hlast2, hfix2⟩ := H1 e2 hm2
          obtain ⟨d2, hd2mem, hd2eq⟩ := List.mem_map.mp (H3 e2 hm2)
          have hsame : d2.1.getLastD ("") = d.1.getLastD ("") := by
            rw [hd2eq, hlast2, hp2]
          have heq := H4 d2 hd2mem d hmemd hsame
          rw [show e2.2.2 = d.1 from by rw [← hd2eq, heq]]
        | none =>
          dsimp only
          cases hB2 : disk.find? (fun d' => d'.1.getLastD ("") == d.1.getLastD ("")) with
          | none =>
            exfalso
            have := List.find?_eq_none.mp hB2 d hmemd
            simp at this
          | some d0 =>
            dsimp only
            have hm0 := List.mem_of_find?_eq_some hB2
            have hp0 : d0.1.getLastD ("") = d.1.getLastD ("") := by
              simpa using List.find?_some hB2
            have heq := H4 d0 hm0 d hmemd hp0
            rw [heq]

/-- One rewrite of one image-regex match is idempotent under the name
hypotheses. -/
theorem rewritePiece_idem (m : ImageManager) (disk : List (RelPath × String))
    (H1 : MapNamesStable m) (H3 : MapInDisk m disk) (H4 : DiskNamesDistinct disk)
    (H5 : DiskNamesStable disk) (piece : MdPiece) :
    rewritePiece m disk (rewritePiece m disk piece) = rewritePiece m disk piece := by
  cases piece with
  | text s => rfl
  | img alt path =>
    by_cases hext : isExternal path = true
    · have hinner : rewritePiece m disk (MdPiece.img alt path) = MdPiece.img alt path := by
        unfold rewritePiece
        dsimp only
        rw [if_pos hext]
      rw [hinner, hinner]
    · cases hl : get_new_image_path_by_filename m disk (pyName path) with
      | none =>
        have hinner : rewritePiece m disk (MdPiece.img alt path) = MdPiece.img alt path := by
          unfold rewritePiece
          dsimp only
          rw [if_neg hext, hl]
        rw [hinner, hinner]
      | some np =>
        by_cases hnp : np = path
        · have hinner : rewritePiece m disk (MdPiece.img alt path) = MdPiece.img alt path := by
            unfold rewritePiece
            dsimp only
            rw [if_neg hext, hl]
            dsimp only
            rw [if_neg (by simp [hnp])]
          rw [hinner, hinner]
        · have hinner : rewritePiece m disk (MdPiece.img alt path) = MdPiece.img alt np := by
            unfold rewritePiece
            dsimp only
            rw [if_neg hext, hl]
            dsimp only
            rw [if_pos hnp]
          rw [hinner]
          have hstab := get_new_image_path_by_filename_stable m disk H1 H3 H4 H5 (pyName path) np hl
          have hnpx := get_new_image_path_by_filename_not_external m disk (pyName path) np hl
          unfold rewritePiece
          dsimp only
          rw [if_neg (by simp [hnpx]), hstab]
          dsimp only
          rw [if_neg (by simp)]

/-- C2 amended: the path rewrite pass is idempotent provided every image-map
entry's canonical filename is the normalized basename of its original path and
is normalization-fixed, every canonical path is a static-tree file, and no two
static-tree files share a filename — the conditions that fail exactly when a
collision-suffixed or duplicated basename makes the filename lookup unstable. -/
theorem c2_amended_rewrite_idempotent (m : ImageManager) (disk : List (RelPath × String))
    (H1 : MapNamesStable m) (H3 : MapInDisk m disk) (H4 : DiskNamesDistinct disk)
    (H5 : DiskNamesStable disk) (c : List MdPiece) :
    rewriteContent m disk (rewriteContent m disk c) = rewriteContent m disk c := by
  unfold rewriteContent
  induction c with
  | nil => rfl
  | cons piece ps ih =>
    simp only [List.map_cons, List.cons.injEq]
    exact ⟨rewritePiece_idem m disk H1 H3 H4 H5 piece, ih⟩

end RewriteStability

/-- Manager of the C2 counterexample: `img/logo.png` was copied under the
collision-suffixed name `logo_1.png`, while a different image whose original
basename is literally `logo_1.png` is also tracked. -/
def mgrC2 : ImageManager :=
  { project_name := "docs", output_dirname := "out",
    image_map := [("img/logo.png", ("h1", ["sub", "logo_1.png"])),
                 ("other/logo_1.png", ("h2", ["b", "logo_1.png"]))] }

/-- C2 counterexample: the first pass rewrites `img/logo.png` to
`/static/img/out/sub/logo_1.png`; the second pass extracts the filename
`logo_1.png`, which now matches the other map entry first, and rewrites the
link again to `/static/img/out/b/logo_1.png` — the pass is not idempotent. -/
theorem c2_counterexample_not_idempotent :
    rewriteContent mgrC2 [] [MdPiece.img ("x") ("img/logo.png")] =
        [MdPiece.img ("x") ("/static/img/out/sub/logo_1.png")] ∧
    rewriteContent mgrC2 []
        (rewriteContent mgrC2 [] [MdPiece.img ("x") ("img/logo.png")]) =
        [MdPiece.img ("x") ("/static/img/out/b/logo_1.png")] ∧
    rewriteContent mgrC2 []
        (rewriteContent mgrC2 [] [MdPiece.img ("x") ("img/logo.png")]) ≠
      rewriteContent mgrC2 [] [MdPiece.img ("x") ("img/logo.png")] := by
  refine ⟨by decide, by decide, by decide⟩

/-- Witness manager for the amended C2: one image copied without a collision
suffix, present on disk. -/
def mgrC2W : ImageManager :=
  { project_name := "docs", output_dirname := "out",
    image_map := [("img/logo.png", ("h1", ["sub", "logo.png"]))] }

theorem c2_amended_rewrite_idempotent_witness :
    rewriteContent mgrC2W [(["sub", "logo.png"], "h1")]
        [MdPiece.img ("x") ("img/logo.png")] =
      [MdPiece.img ("x") ("/static/img/out/sub/logo.png")] ∧
    rewriteContent mgrC2W [(["sub", "logo.png"], "h1")]
        (rewriteContent mgrC2W [(["sub", "logo.png"], "h1")]
          [MdPiece.img ("x") ("img/logo.png")]) =
      rewriteContent mgrC2W [(["sub", "logo.png"], "h1")]
        [MdPiece.img ("x") ("img/logo.png")] :=
  ⟨by decide,
   c2_amended_rewrite_idempotent mgrC2W [(["sub", "logo.png"], "h1")]
      (by decide) (by decide) (by decide) (by decide)
      [MdPiece.img ("x") ("img/logo.png")]⟩

end Html2Md
